import Mathlib

/-!
Shallow embedding of the JMX code-action component of the
`dynatrace-extensions-vscode` repository.

The embedded code is `src/codeActions/jmx.ts` (class `JMXActionProvider`,
referred to below as revision A) together with the near-identical second
revision of the same class found in the sources (revision B), whose
`provideCodeActions` gates on a different trigger condition.

JavaScript strings are embedded as `List Char` (faithful for the ASCII data
these functions handle); regex character-class replacements become `map` /
`filter` over characters; the mutable string accumulator of
`createQueryInsertions` becomes a structural fold; `undefined`-able values
in the dynamically typed scrape data become `Option`, and JavaScript
`TypeError` exceptions become `Except Unit`.
-/

set_option maxRecDepth 1000000

/-- Strings of the embedded JavaScript are lists of characters. -/
abbrev JSStr := List Char

/-- Coercion from Lean string literals into the embedding's string type. -/
def str (s : String) : JSStr := s.data

/-- Test of the regex `/[a-z]/i` on a single character (ASCII letter). -/
def isAsciiAlpha (c : Char) : Bool :=
  ('a' ≤ c && c ≤ 'z') || ('A' ≤ c && c ≤ 'Z')

/-- Membership in the regex character class `[a-zA-Z0-9_.]` used by
`ConvertMetricKey`'s whitelist replacement. -/
def isAllowedKeyChar (c : Char) : Bool :=
  ('a' ≤ c && c ≤ 'z') || ('A' ≤ c && c ≤ 'Z') || ('0' ≤ c && c ≤ '9') ||
    c == '_' || c == '.'

/-- JavaScript `String.prototype.toLowerCase` on ASCII data: each character
is lowered with `Char.toLower` (identity outside `A`-`Z`). -/
def jsToLower (s : JSStr) : JSStr := s.map Char.toLower

/-- JavaScript `s.slice(0, stop)`: a negative `stop` counts from the end of
the string, and the result is always a prefix of `s`. -/
def jsSlice0 (s : JSStr) (stop : Int) : JSStr :=
  if stop < 0 then s.take (s.length - stop.natAbs) else s.take stop.toNat

/-- JavaScript `s.includes(pat)`: `pat` occurs as a contiguous substring. -/
def jsIncludes (s pat : JSStr) : Bool :=
  match s with
  | [] => pat.isEmpty
  | _ :: rest => pat.isPrefixOf s || jsIncludes rest pat

/-- Splitting of a character list at every `'\n'`; a document text of `n`
newline characters yields `n + 1` lines.  Mirrors how the host editor
presents `TextDocument` text as lines. -/
def linesOf : JSStr → List JSStr
  | [] => [[]]
  | c :: cs =>
    if c = '\n' then [] :: linesOf cs
    else
      match linesOf cs with
      | [] => [[c]]
      | l :: ls => (c :: l) :: ls

/-- `ConvertMetricKey` of `jmx.ts` (lines 221-230): replace the characters
of the class `[:|,]` by `'.'`, then those of `[=| ]` by `'_'`, then delete
every character outside `[a-zA-Z0-9_.]`, and append a final `'.'`. -/
def ConvertMetricKey (fullPath : JSStr) : JSStr :=
  let s1 := fullPath.map fun c => if c == ':' || c == '|' || c == ',' then '.' else c
  let s2 := s1.map fun c => if c == '=' || c == '|' || c == ' ' then '_' else c
  let s3 := s2.filter isAllowedKeyChar
  s3 ++ ['.']

/-- Global replacement of the two-character pattern `"=,"` by `"=*,"`, the
`fullPath.replace(/=,/g, "=*,")` step of `formatQuery`: scanning is left to
right and resumes after each replaced match. -/
def replaceEqComma : JSStr → JSStr
  | [] => []
  | '=' :: ',' :: rest => '=' :: '*' :: ',' :: replaceEqComma rest
  | c :: rest => c :: replaceEqComma rest

/-- `formatQuery` of `jmx.ts` (lines 232-241): rewrite `"=,"` to `"=*,"`
everywhere, then append `'*'` when the result ends with `'='`. -/
def formatQuery (fullPath : JSStr) : JSStr :=
  let query := replaceEqComma fullPath
  if query.getLast? = some '=' then query ++ ['*'] else query

/-- The key built for one numeric metric attribute in
`createQueryInsertions` (lines 138-145 and identically 185-192): the
sanitized path prefix concatenated with the lower-cased attribute name,
truncated through `slice` when the combined length exceeds 250. -/
def trueMetricKeyOf (fullPath name : JSStr) : JSStr :=
  let metricKey := ConvertMetricKey fullPath
  let t := metricKey ++ jsToLower name
  if 250 < t.length then
    let metricKeyLength := (jsToLower name).length
    let trueSize : Int := 249 - (metricKeyLength : Int)
    jsSlice0 metricKey trueSize ++ ('.' :: jsToLower name)
  else t

/-- One scraped metric attribute: `{name: string, numeric: bool}` of the
scrape-data contract. -/
structure JMXMetric where
  name : JSStr
  numeric : Bool
deriving DecidableEq, Repr

/-- One scraped element: `fullPath`, dimensional `properties` and the
`metrics` attribute list (entry order of the JSON object preserved). -/
structure JMXElement where
  fullPath : JSStr
  properties : List (JSStr × JSStr)
  metrics : List JMXMetric
deriving DecidableEq, Repr

/-- The nested scrape data `jmxData[domain].data[mbean].data`, domain and
mbean names paired with their element lists in object-entry order. -/
abbrev JmxData := List (JSStr × List (JSStr × List JMXElement))

/-- The cached scrape response `jmxDataResponse`: a `process_name` (possibly
absent) and the nested `jmxData` record. -/
structure JmxDataResponse where
  process_name : Option JSStr
  jmxData : JmxData

/-- The elements of the scrape data in the order the three nested `for`
loops of `createQueryInsertions` (lines 111-113) visit them. -/
def elementsOf (jd : JmxData) : List JMXElement :=
  jd.flatMap fun dom => dom.2.flatMap fun mb => mb.2

/-- The two `yamlString +=` lines emitted per property (lines 124-125):
note that the source uses `key` both for the dimension key and after
`property:` — the property's value is never emitted. -/
def propDim (kv : JSStr × JSStr) : JSStr :=
  str "          - key: " ++ jsToLower kv.1 ++
    str "\n            value: property:" ++ kv.1 ++ str "\n"

/-- The two lines emitted per non-numeric metric attribute, which becomes a
dimension (lines 129-130). -/
def attrDim (m : JMXMetric) : JSStr :=
  str "          - key: " ++ jsToLower m.name ++
    str "\n            value: attribute:" ++ m.name ++ str "\n"

/-- The three lines emitted per numeric metric attribute (lines 146-148). -/
def metricEntry (fullPath : JSStr) (m : JMXMetric) : JSStr :=
  str "          - key: " ++ trueMetricKeyOf fullPath m.name ++
    str "\n            type: gauge \n            value: attribute:" ++ m.name ++ str "\n"

/-- The constant-value placeholder metric emitted when an element has no
numeric metric attribute (lines 151-155). -/
def constMetricEntry : JSStr :=
  str "          - key: jmx.const.value \n            type: gauge \n            value: const:1 \n"

/-- The dimensions block of one subgroup: all properties, then all
non-numeric metric attributes (lines 123-132). -/
def dimsSection (e : JMXElement) : JSStr :=
  e.properties.flatMap propDim ++
    (e.metrics.filter fun m => !m.numeric).flatMap attrDim

/-- The metrics block of one subgroup: the numeric attributes, or the
constant placeholder when there is none; `hasMetric` of the source is
exactly `e.metrics.any (·.numeric)` (lines 134-155). -/
def metricsSection (e : JMXElement) : JSStr :=
  if e.metrics.any fun m => m.numeric then
    (e.metrics.filter fun m => m.numeric).flatMap (metricEntry e.fullPath)
  else constMetricEntry

/-- The dimensions header of the `subgroupCount < 10` branch (line 122). -/
def dimsHeaderIf : JSStr := str "         dimensions: \n"

/-- The dimensions header of the rollover branch, which writes
`"dimensions : "` with a stray space before the colon (line 169). -/
def dimsHeaderElse : JSStr := str "         dimensions : \n"

/-- One full subgroup chunk as appended to `yamlString`; the two source
branches differ only in the dimensions header literal, passed here as
`dimsHeader` (lines 114-155 and 162-202). -/
def subgroupChunk (dimsHeader : JSStr) (e : JMXElement) : JSStr :=
  str "       - subgroup: " ++ e.fullPath ++
    str "\n         query: " ++ formatQuery e.fullPath ++ str "\n" ++
    dimsHeader ++ dimsSection e ++
    str "         metrics: \n" ++ metricsSection e

/-- The group header lines `"  - group: group_<n>"` and `"    subgroups: "`
(lines 108-109 and 160-161). -/
def groupHeader (n : Nat) : JSStr :=
  str "  - group: group_" ++ (Nat.repr n).data ++ str "\n    subgroups: \n"

/-- The element loop of `createQueryInsertions` with its `groupCount` and
`subgroupCount` state: below 10 subgroups the element joins the current
group, otherwise a new group is opened and the count restarts at 1
(lines 113-205). -/
def qiLoop : List JMXElement → Nat → Nat → JSStr
  | [], _, _ => []
  | e :: es, groupCount, subgroupCount =>
    if subgroupCount < 10 then
      subgroupChunk dimsHeaderIf e ++ qiLoop es groupCount (subgroupCount + 1)
    else
      groupHeader (groupCount + 1) ++ subgroupChunk dimsHeaderElse e ++
        qiLoop es (groupCount + 1) 1

/-- The complete `yamlString` of `createQueryInsertions`: the `"  groups:"`
header, the `group_0` header, and the element loop started with counts 0/0
(lines 106-207).  The triple nested `for` with threaded state equals the
fold over the flattened element sequence. -/
def yamlFull (jd : JmxData) : JSStr :=
  str "  groups:\n" ++ groupHeader 0 ++ qiLoop (elementsOf jd) 0 0

/-- A produced code action: its title, the text its edit inserts, and the
line/column of the insertion position. -/
structure CodeAction where
  title : JSStr
  insertText : JSStr
  insertLine : Nat
  insertCol : Nat
deriving DecidableEq, Repr

/-- Modelled from the spec: `indentJMXSnippet` is imported from
`./utils/snippetBuildingUtils`, which is not among the provided sources.
Per the spec (§4.2) the produced block is the snippet with every line
indented by the anchor indent. -/
def indentJMXSnippet (snippet : JSStr) (indent : Nat) : JSStr :=
  List.intercalate ['\n'] ((linesOf snippet).map fun l => List.replicate indent ' ' ++ l)

/-- `document.lineAt(n)` of the host editor: the text of line `n` (the
empty line when out of range, a case valid trigger ranges never hit). -/
def lineAt (docLines : List JSStr) (n : Nat) : JSStr := docLines.getD n []

/-- `createInsertAction` (lines 72-90 of `jmx.ts`, identical in revision
B): when the trigger line is the document's last line a newline is
prepended to the snippet; the anchor indent is the index of the first
match of `/[a-z]/i` on the trigger line, and without such a match no
action is produced; the edit inserts at line `startLine + 1`, column 0. -/
def createInsertAction (actionName textToInsert : JSStr)
    (docLines : List JSStr) (startLine : Nat) : Option CodeAction :=
  let t := if docLines.length = startLine + 1 then '\n' :: textToInsert else textToInsert
  match (lineAt docLines startLine).findIdx? isAsciiAlpha with
  | some indent => some ⟨actionName, indentJMXSnippet t indent, startLine + 1, 0⟩
  | none => none

/-- `createQueryInsertions` (lines 100-219): builds `yamlString` from the
scrape data — never consulting the document for already-present keys — and
wraps it in the single `Insert JMX data for <process_name ?? "">` action
when `createInsertAction` succeeds. -/
def createQueryInsertions (docLines : List JSStr) (startLine : Nat)
    (jd : JmxDataResponse) : List CodeAction :=
  match createInsertAction (str "Insert JMX data for " ++ jd.process_name.getD [])
      (yamlFull jd.jmxData) docLines startLine with
  | some a => [a]
  | none => []

/-- Test of `/^jmx:/gm` on the whole document: some line starts with
`"jmx:"`. -/
def docHasJmxRoot (docLines : List JSStr) : Bool :=
  docLines.any fun l => (str "jmx:").isPrefixOf l

/-- `provideCodeActions` of revision A (lines 43-62 of `jmx.ts`): bail out
unless the document matches `/^jmx:/gm` and scrape data is cached; offer
the query insertions when the trigger line contains `"jmx:"`.  (Revision A
also computes `getParentBlocks` but never uses the result.) -/
def provideCodeActionsA (docLines : List JSStr) (startLine : Nat)
    (jmxData : Option JmxDataResponse) : List CodeAction :=
  match jmxData with
  | none => []
  | some jd =>
    if docHasJmxRoot docLines then
      if jsIncludes (lineAt docLines startLine) (str "jmx:") then
        createQueryInsertions docLines startLine jd
      else []
    else []

/-- Leading-space count of a line. -/
def indentOf (l : JSStr) : Nat := (l.takeWhile fun c => c == ' ').length

/-- Modelled from the spec: trimmed line content with a leading `"- "` list
marker removed (`§4.1`: list markers are transparent for depth purposes). -/
def trimmedContent (l : JSStr) : JSStr :=
  let a := l.dropWhile fun c => c == ' '
  let b := if (str "- ").isPrefixOf a then a.drop 2 else a
  (b.reverse.dropWhile fun c => c == ' ').reverse

/-- Modelled from the spec: the name of a bare mapping key `<name>:` (no
inline scalar), when the trimmed content has that shape. -/
def bareKeyName (l : JSStr) : Option JSStr :=
  let t := trimmedContent l
  match t.getLast? with
  | some ':' =>
    if 2 ≤ t.length ∧ t.dropLast.all fun c => c != ':' && c != ' ' then
      some t.dropLast
    else none
  | _ => none

/-- Modelled from the spec: the upward scan of `parentBlocksOf` (§4.1) over
the reversed lines above the target, collecting bare mapping keys at
strictly decreasing indentation, innermost first. -/
def parentScan : List JSStr → Nat → List JSStr
  | [], _ => []
  | l :: above, minIndent =>
    if indentOf l < minIndent then
      match bareKeyName l with
      | some name => name :: parentScan above (indentOf l)
      | none => parentScan above minIndent
    else parentScan above minIndent

/-- Modelled from the spec: `getParentBlocks` of `../utils/yamlParsing`,
which is not among the provided sources — the ordered stack of enclosing
block names, outermost to innermost (§4.1). -/
def getParentBlocks (targetLine : Nat) (docLines : List JSStr) : List JSStr :=
  (parentScan (docLines.take targetLine).reverse
    (indentOf (lineAt docLines targetLine))).reverse

/-- `createMetricInsertions` of revision B (lines 107-124 of that file):
a single `Insert JMX Response` action whose text is the last entry of the
scrape-data array. -/
def createMetricInsertions (docLines : List JSStr) (startLine : Nat)
    (jmxDataB : List JSStr) : List CodeAction :=
  match createInsertAction (str "Insert JMX Response")
      (jmxDataB.getLastD (str "undefined")) docLines startLine with
  | some a => [a]
  | none => []

/-- `provideCodeActions` of revision B (lines 42-69 of that file): bail out
unless the document matches `/^jmx:/gm` and the scrape-data array is
non-empty; offer the insertion only when the innermost parent block is
`jmx` or `subgroups` and the trigger line contains `"metrics:"`. -/
def provideCodeActionsB (docLines : List JSStr) (startLine : Nat)
    (jmxDataB : List JSStr) : List CodeAction :=
  if docHasJmxRoot docLines ∧ jmxDataB.length ≠ 0 then
    let parentBlocks := getParentBlocks startLine docLines
    if parentBlocks.getLast? = some (str "jmx") ∨
        parentBlocks.getLast? = some (str "subgroups") then
      if jsIncludes (lineAt docLines startLine) (str "metrics:") then
        createMetricInsertions docLines startLine jmxDataB
      else []
    else []
  else []

/-- A scraped metric as it actually arrives through the unvalidated
`JSON.parse(...) as jmxDataResponse` cast: either field may be absent
(`undefined`). -/
structure RawJMXMetric where
  name : Option JSStr
  numeric : Option Bool
deriving DecidableEq, Repr

/-- A scraped element with possibly absent fields, as the unvalidated cast
can produce. -/
structure RawJMXElement where
  fullPath : Option JSStr
  properties : Option (List (JSStr × JSStr))
  metrics : Option (List RawJMXMetric)
deriving DecidableEq, Repr

/-- Accessing an absent value where JavaScript would throw a `TypeError`
(`undefined.replace`, `Object.entries(undefined)`, iterating `undefined`,
`undefined.toLowerCase()`): the exception aborts the computation. -/
def req {α : Type} : Option α → Except Unit α
  | none => Except.error ()
  | some a => Except.ok a

/-- The attribute-dimension lines for one non-numeric raw metric; touching
`metric.name.toLowerCase()` throws when the name is absent (lines 129-130). -/
def rawAttrDim (m : RawJMXMetric) : Except Unit JSStr := do
  let n ← req m.name
  pure (str "          - key: " ++ jsToLower n ++
    str "\n            value: attribute:" ++ n ++ str "\n")

/-- The metric-entry lines for one numeric raw metric (lines 146-148). -/
def rawMetricEntry (fullPath : JSStr) (m : RawJMXMetric) : Except Unit JSStr := do
  let n ← req m.name
  pure (str "          - key: " ++ trueMetricKeyOf fullPath n ++
    str "\n            type: gauge \n            value: attribute:" ++ n ++ str "\n")

/-- One subgroup chunk over raw scrape data, with JavaScript exception
semantics: an absent `fullPath` throws inside `formatQuery`, absent
`properties` throws in `Object.entries`, absent `metrics` throws in the
`for...of`, and absent metric names throw in `toLowerCase` (an absent
`numeric` is merely falsy).  There is no `try`/`catch` anywhere in
`createQueryInsertions` or `provideCodeActions`. -/
def rawSubgroupChunk (dimsHeader : JSStr) (e : RawJMXElement) : Except Unit JSStr := do
  let fullPath ← req e.fullPath
  let props ← req e.properties
  let mets ← req e.metrics
  let attrDims ← (mets.filter fun m => !(m.numeric.getD false)).mapM rawAttrDim
  let numeric := mets.filter fun m => m.numeric.getD false
  let metEntries ← numeric.mapM (rawMetricEntry fullPath)
  let metsStr := if numeric.isEmpty then constMetricEntry else metEntries.flatten
  pure (str "       - subgroup: " ++ fullPath ++
    str "\n         query: " ++ formatQuery fullPath ++ str "\n" ++
    dimsHeader ++ props.flatMap propDim ++ attrDims.flatten ++
    str "         metrics: \n" ++ metsStr)

/-- The element loop of `createQueryInsertions` over raw scrape data: the
first JavaScript exception propagates out of the whole loop (and out of
`provideCodeActions`), so nothing at all is produced. -/
def rawQiLoop : List RawJMXElement → Nat → Nat → Except Unit JSStr
  | [], _, _ => Except.ok []
  | e :: es, groupCount, subgroupCount =>
    if subgroupCount < 10 then do
      let c ← rawSubgroupChunk dimsHeaderIf e
      let rest ← rawQiLoop es groupCount (subgroupCount + 1)
      pure (c ++ rest)
    else do
      let c ← rawSubgroupChunk dimsHeaderElse e
      let rest ← rawQiLoop es (groupCount + 1) 1
      pure (groupHeader (groupCount + 1) ++ c ++ rest)

/-- A raw element whose processing throws: an absent `fullPath`,
`properties` or `metrics`, or a metric entry with an absent `name` (every
metric's name is read, by the dimensions loop or by the metrics loop). -/
def isMalformedRaw (e : RawJMXElement) : Bool :=
  e.fullPath.isNone || e.properties.isNone || e.metrics.isNone ||
    (e.metrics.getD []).any fun m => m.name.isNone

/-- Discriminator for the error outcome of the raw loop. -/
def exceptIsError (r : Except Unit JSStr) : Bool :=
  match r with
  | Except.error _ => true
  | Except.ok _ => false

/-- Lines of a fragment, for stating structural facts about generated
YAML; total inverse of `joinNL` on newline-free lines. -/
def joinNL (ls : List JSStr) : JSStr := ls.flatMap fun l => l ++ ['\n']

/-- Recognizer of the group-entry lines `"  - group: ..."` the fragment
emits. -/
def isGroupLine (l : JSStr) : Bool := (str "  - group: ").isPrefixOf l

/-- Recognizer of the subgroup-entry lines `"       - subgroup: ..."` the
fragment emits. -/
def isSubgroupLine (l : JSStr) : Bool := (str "       - subgroup: ").isPrefixOf l

/-- Walk over a fragment's lines counting subgroup entries per group entry:
the accumulator is the running count for the currently open group. -/
def subgroupCountsAux : List JSStr → Nat → List Nat
  | [], cur => [cur]
  | l :: ls, cur =>
    if isGroupLine l then cur :: subgroupCountsAux ls 0
    else subgroupCountsAux ls (if isSubgroupLine l then cur + 1 else cur)

/-- Subgroup-entry counts per group entry of a fragment's lines (the count
accumulated before the first group entry is discarded). -/
def subgroupCounts (ls : List JSStr) : List Nat := (subgroupCountsAux ls 0).tail

/-- The dimensions-header line of the `subgroupCount < 10` branch. -/
def dimsLineIf : JSStr := str "         dimensions: "

/-- The dimensions-header line of the rollover branch. -/
def dimsLineElse : JSStr := str "         dimensions : "

/-- The lines of one subgroup chunk, in emission order. -/
def chunkLines (dimsLine : JSStr) (e : JMXElement) : List JSStr :=
  [str "       - subgroup: " ++ e.fullPath,
   str "         query: " ++ formatQuery e.fullPath,
   dimsLine] ++
  e.properties.flatMap (fun kv =>
    [str "          - key: " ++ jsToLower kv.1,
     str "            value: property:" ++ kv.1]) ++
  (e.metrics.filter fun m => !m.numeric).flatMap (fun m =>
    [str "          - key: " ++ jsToLower m.name,
     str "            value: attribute:" ++ m.name]) ++
  [str "         metrics: "] ++
  (if e.metrics.any fun m => m.numeric then
    (e.metrics.filter fun m => m.numeric).flatMap (fun m =>
      [str "          - key: " ++ trueMetricKeyOf e.fullPath m.name,
       str "            type: gauge ",
       str "            value: attribute:" ++ m.name])
   else
    [str "          - key: jmx.const.value ",
     str "            type: gauge ",
     str "            value: const:1 "])

/-- The two lines of a group header. -/
def groupHeaderLines (n : Nat) : List JSStr :=
  [str "  - group: group_" ++ (Nat.repr n).data, str "    subgroups: "]

/-- Newline-freeness of an element's string fields, under which the
generated fragment's line structure is the intended one. -/
def elemNlFree (e : JMXElement) : Prop :=
  '\n' ∉ e.fullPath ∧ (∀ kv ∈ e.properties, '\n' ∉ kv.1) ∧
    ∀ m ∈ e.metrics, '\n' ∉ m.name

instance (e : JMXElement) : Decidable (elemNlFree e) := by
  unfold elemNlFree; infer_instance

/-- A long path of 300 `'a'` characters, forcing key truncation. -/
def longPathA : JSStr := List.replicate 300 'a'

/-- A metric attribute name of 260 `'b'` characters, longer than the whole
250-character budget. -/
def longNameB : JSStr := List.replicate 260 'b'

/-- A small one-element scrape response used as concrete input. -/
def jdSmall : JmxDataResponse :=
  ⟨some (str "java"),
   [(str "com.example",
     [(str "bean",
       [⟨str "com.example:type=A", [(str "Type", str "x")], [⟨str "Count", true⟩]⟩])])]⟩

/-- The single document line `jmx:`, the smallest document whose text
matches `/^jmx:/gm`. -/
def jmxDoc0 : List JSStr := [str "jmx:"]

/-- The text the first offered action inserts into `jmxDoc0` (the anchor
line is the last line, so a newline is prepended before indenting). -/
def insertedTextC5 : JSStr := indentJMXSnippet ('\n' :: yamlFull jdSmall.jmxData) 0

/-- The document after applying the offered edit to `jmxDoc0`: the
insertion position (line 1, column 0) is the end of the one-line document,
so the text is appended. -/
def jmxDoc1 : List JSStr := linesOf (str "jmx:" ++ insertedTextC5)

/-- A well-formed raw scraped element. -/
def goodRawElem : RawJMXElement :=
  ⟨some (str "com.example:type=A"), some [(str "Type", str "x")],
   some [⟨some (str "Count"), some true⟩]⟩

/-- A malformed raw scraped element: its `metrics` field is absent, so the
`for...of` over it throws a `TypeError`. -/
def badRawElem : RawJMXElement :=
  ⟨some (str "com.example:type=B"), some [], none⟩

theorem char_toNat_ofNat_valid (n : Nat) (h : n < 0xd800) : (Char.ofNat n).toNat = n := by
  have hv : n.isValidChar := Or.inl h
  unfold Char.ofNat
  rw [dif_pos hv]
  unfold Char.ofNatAux Char.toNat
  simp [UInt32.toNat, BitVec.toNat_ofNatLt]

theorem toLower_ne_newline (c : Char) (h : c ≠ '\n') : Char.toLower c ≠ '\n' := by
  unfold Char.toLower
  by_cases h65 : c.toNat ≥ 65 ∧ c.toNat ≤ 90
  · rw [if_pos h65]
    intro hEq
    have h2 : (Char.ofNat (c.toNat + 32)).toNat = c.toNat + 32 :=
      char_toNat_ofNat_valid _ (by omega)
    rw [hEq] at h2
    have h3 : ('\n').toNat = 10 := by decide
    omega
  · rw [if_neg h65]
    exact h

theorem not_mem_jsToLower_newline (s : JSStr) (h : '\n' ∉ s) : '\n' ∉ jsToLower s := by
  intro hmem
  rcases List.mem_map.1 hmem with ⟨a, ha, hEq⟩
  exact toLower_ne_newline a (fun hc => h (hc ▸ ha)) hEq

theorem mem_ConvertMetricKey (p : JSStr) :
    ∀ c ∈ ConvertMetricKey p, isAllowedKeyChar c = true := by
  intro c hc
  simp only [ConvertMetricKey, List.mem_append, List.mem_singleton] at hc
  rcases hc with hc | hc
  · exact (List.mem_filter.1 hc).2
  · subst hc; decide

theorem mem_jsSlice0 (s : JSStr) (n : Int) (c : Char) (h : c ∈ jsSlice0 s n) : c ∈ s := by
  unfold jsSlice0 at h
  split at h <;> exact List.take_subset _ _ h

theorem jsSlice0_isPrefix (s : JSStr) (n : Int) : jsSlice0 s n <+: s := by
  unfold jsSlice0
  split <;> exact List.take_prefix _ _

theorem jsSlice0_length_le (s : JSStr) (n : Int) (h : 0 ≤ n) :
    (jsSlice0 s n).length ≤ n.toNat := by
  unfold jsSlice0
  rw [if_neg (not_lt.2 h)]
  rw [List.length_take]
  exact min_le_left _ _

/-- C1 counterexample: the claim fails as stated — the key emitted for path
`"Domain:type=Foo"` and attribute `"Used"` is `"Domain.type_Foo.used"`,
which is not lowercase; attribute `"My-Metric"` puts the disallowed `'-'`
into the key; and a 260-character attribute name drives the truncated key
to 551 characters, beyond 250. -/
theorem claim_C1_counterexample :
    jsToLower (trueMetricKeyOf (str "Domain:type=Foo") (str "Used")) ≠
      trueMetricKeyOf (str "Domain:type=Foo") (str "Used") ∧
    ¬ (∀ c ∈ trueMetricKeyOf (str "a") (str "My-Metric"), isAllowedKeyChar c = true) ∧
    250 < (trueMetricKeyOf longPathA longNameB).length := by
  decide

/-- C1 as amended: for every input path, the emitted key (sanitized prefix
plus lower-cased attribute name, after truncation) consists of characters
in `[a-zA-Z0-9_.]` — not necessarily lowercase, since the path-derived
prefix keeps its case — and has length at most 250, provided the
lower-cased attribute name itself uses only allowed characters and is at
most 248 characters long. -/
theorem claim_C1_theorem (fullPath name : JSStr)
    (hchars : ∀ c ∈ jsToLower name, isAllowedKeyChar c = true)
    (hlen : (jsToLower name).length ≤ 248) :
    (∀ c ∈ trueMetricKeyOf fullPath name, isAllowedKeyChar c = true) ∧
      (trueMetricKeyOf fullPath name).length ≤ 250 := by
  have hmk := mem_ConvertMetricKey fullPath
  unfold trueMetricKeyOf
  by_cases h : 250 < (ConvertMetricKey fullPath ++ jsToLower name).length
  · rw [if_pos h]
    constructor
    · intro c hc
      simp only [List.mem_append, List.mem_cons] at hc
      rcases hc with hc | hc | hc
      · exact hmk c (mem_jsSlice0 _ _ _ hc)
      · subst hc; decide
      · exact hchars c hc
    · have hs : (jsSlice0 (ConvertMetricKey fullPath)
          (249 - ((jsToLower name).length : Int))).length ≤
          (249 - ((jsToLower name).length : Int)).toNat :=
        jsSlice0_length_le _ _ (by omega)
      simp only [List.length_append, List.length_cons]
      omega
  · rw [if_neg h]
    constructor
    · intro c hc
      rcases List.mem_append.1 hc with hc | hc
      · exact hmk c hc
      · exact hchars c hc
    · omega

theorem claim_C1_witness :
    (∀ c ∈ jsToLower (str "used"), isAllowedKeyChar c = true) ∧
    (jsToLower (str "used")).length ≤ 248 ∧
    ((∀ c ∈ trueMetricKeyOf longPathA (str "used"), isAllowedKeyChar c = true) ∧
      (trueMetricKeyOf longPathA (str "used")).length ≤ 250) :=
  ⟨by decide, by decide, claim_C1_theorem longPathA (str "used") (by decide) (by decide)⟩

/-- C2: whenever the concatenated key exceeds 250 characters, the truncated
key is a (possibly shortened) prefix of the sanitized path key followed by
`'.'` and the full lower-cased attribute name — the suffix is never
shortened. -/
theorem claim_C2_theorem (fullPath name : JSStr)
    (h : 250 < (ConvertMetricKey fullPath ++ jsToLower name).length) :
    ∃ pre, trueMetricKeyOf fullPath name = pre ++ '.' :: jsToLower name ∧
      pre <+: ConvertMetricKey fullPath := by
  refine ⟨jsSlice0 (ConvertMetricKey fullPath) (249 - ((jsToLower name).length : Int)),
    ?_, jsSlice0_isPrefix _ _⟩
  unfold trueMetricKeyOf
  rw [if_pos h]

theorem claim_C2_witness :
    250 < (ConvertMetricKey longPathA ++ jsToLower (str "used")).length ∧
    ∃ pre, trueMetricKeyOf longPathA (str "used") = pre ++ '.' :: jsToLower (str "used") ∧
      pre <+: ConvertMetricKey longPathA :=
  ⟨by decide, claim_C2_theorem longPathA (str "used") (by decide)⟩

theorem replaceEqComma_cons_of_ne (c : Char) (rest : JSStr)
    (hg : ∀ rest2 : JSStr, c = '=' → rest = ',' :: rest2 → False) :
    replaceEqComma (c :: rest) = c :: replaceEqComma rest := by
  rw [replaceEqComma.eq_def]
  split
  · rename_i heq
    exact absurd heq (by simp)
  · rename_i rest2 heq
    injection heq with h1 h2
    exact absurd (hg rest2 h1 h2) not_false
  · rename_i c2 rest2 hg2 heq
    injection heq with h1 h2
    subst h1; subst h2; rfl

theorem head_replaceEqComma (r : JSStr) : (replaceEqComma r).head? = r.head? := by
  induction r using replaceEqComma.induct with
  | case1 => rfl
  | case2 rest ih => rfl
  | case3 c rest hg ih => rw [replaceEqComma_cons_of_ne c rest hg]; rfl

theorem jsIncludes_eq_false_iff (s pat : JSStr) (hne : pat ≠ []) :
    jsIncludes s pat = false ↔ ¬ pat <:+: s := by
  induction s with
  | nil =>
    simp [jsIncludes, List.isEmpty_iff, hne]
  | cons c s' ih =>
    show (pat.isPrefixOf (c :: s') || jsIncludes s' pat) = false ↔ _
    rw [Bool.or_eq_false_iff, List.infix_cons_iff]
    constructor
    · rintro ⟨h1, h2⟩ (hp | hi)
      · rw [← List.isPrefixOf_iff_prefix] at hp
        simp [hp] at h1
      · exact (ih.1 h2) hi
    · intro h
      constructor
      · by_cases hp : pat.isPrefixOf (c :: s') = true
        · exact absurd (Or.inl (List.isPrefixOf_iff_prefix.1 hp)) h
        · exact Bool.eq_false_iff.2 hp
      · exact ih.2 fun hi => h (Or.inr hi)

theorem singleton_prefix_iff (a : Char) (l : JSStr) : [a] <+: l ↔ l.head? = some a := by
  cases l with
  | nil => simp
  | cons b l' => simp [List.cons_prefix_cons, eq_comm]

theorem not_eqComma_infix (p : JSStr) : ¬ (['=', ','] : JSStr) <:+: replaceEqComma p := by
  induction p using replaceEqComma.induct with
  | case1 => simp [replaceEqComma]
  | case2 rest ih =>
    show ¬ _ <:+: ('=' :: '*' :: ',' :: replaceEqComma rest)
    intro h
    rcases List.infix_cons_iff.1 h with hp | h
    · rw [List.cons_prefix_cons] at hp
      rcases hp with ⟨-, hp⟩
      rw [List.cons_prefix_cons] at hp
      exact absurd hp.1 (by decide)
    rcases List.infix_cons_iff.1 h with hp | h
    · rw [List.cons_prefix_cons] at hp
      exact absurd hp.1 (by decide)
    rcases List.infix_cons_iff.1 h with hp | h
    · rw [List.cons_prefix_cons] at hp
      exact absurd hp.1 (by decide)
    exact ih h
  | case3 c rest hg ih =>
    rw [replaceEqComma_cons_of_ne c rest hg]
    intro h
    rcases List.infix_cons_iff.1 h with hp | h
    · rw [List.cons_prefix_cons] at hp
      rcases hp with ⟨hc, hp⟩
      rw [singleton_prefix_iff, head_replaceEqComma] at hp
      cases rest with
      | nil => simp at hp
      | cons r rest' =>
        simp at hp
        exact hg rest' hc.symm (by rw [hp])
    · exact ih h

theorem not_eqComma_infix_formatQuery (p : JSStr) :
    ¬ (['=', ','] : JSStr) <:+: formatQuery p := by
  rw [show formatQuery p = if (replaceEqComma p).getLast? = some '=' then
    replaceEqComma p ++ ['*'] else replaceEqComma p from rfl]
  split
  · intro h
    have h2 := List.reverse_infix.2 h
    rw [List.reverse_append] at h2
    simp only [List.reverse_cons, List.reverse_nil, List.nil_append,
      List.singleton_append] at h2
    rcases List.infix_cons_iff.1 h2 with hp | hi
    · rw [List.cons_prefix_cons] at hp
      exact absurd hp.1 (by decide)
    · exact not_eqComma_infix p (List.reverse_infix.1 hi)
  · exact not_eqComma_infix p

theorem replaceEqComma_eq_nil_iff (p : JSStr) : replaceEqComma p = [] ↔ p = [] := by
  induction p using replaceEqComma.induct with
  | case1 => simp [replaceEqComma]
  | case2 rest ih => simp [replaceEqComma]
  | case3 c rest hg ih => rw [replaceEqComma_cons_of_ne c rest hg]; simp

theorem getLast?_cons_of_ne_nil (a : Char) (l : JSStr) (h : l ≠ []) :
    (a :: l).getLast? = l.getLast? := by
  obtain ⟨x, xs, rfl⟩ := List.exists_cons_of_ne_nil h
  rw [List.getLast?_cons_cons]

theorem getLast_replaceEqComma (p : JSStr) (h : p.getLast? = some '=') :
    (replaceEqComma p).getLast? = some '=' := by
  induction p using replaceEqComma.induct with
  | case1 => simp at h
  | case2 rest ih =>
    by_cases hr : rest = []
    · subst hr; exact absurd h (by decide)
    · have h' : rest.getLast? = some '=' := by
        rwa [List.getLast?_cons_cons, getLast?_cons_of_ne_nil _ _ hr] at h
      have hR : replaceEqComma rest ≠ [] := by
        rw [Ne, replaceEqComma_eq_nil_iff]; exact hr
      show ('=' :: '*' :: ',' :: replaceEqComma rest).getLast? = some '='
      rw [List.getLast?_cons_cons, List.getLast?_cons_cons,
        getLast?_cons_of_ne_nil _ _ hR]
      exact ih h'
  | case3 c rest hg ih =>
    rw [replaceEqComma_cons_of_ne c rest hg]
    by_cases hr : rest = []
    · subst hr
      simp only [List.getLast?_singleton] at h ⊢
      exact h
    · have h' : rest.getLast? = some '=' := by
        rwa [getLast?_cons_of_ne_nil _ _ hr] at h
      have hR : replaceEqComma rest ≠ [] := by
        rw [Ne, replaceEqComma_eq_nil_iff]; exact hr
      rw [getLast?_cons_of_ne_nil _ _ hR]
      exact ih h'

theorem formatQuery_append_star (p : JSStr) (h : p.getLast? = some '=') :
    formatQuery p = replaceEqComma p ++ ['*'] := by
  rw [show formatQuery p = if (replaceEqComma p).getLast? = some '=' then
    replaceEqComma p ++ ['*'] else replaceEqComma p from rfl]
  rw [if_pos (getLast_replaceEqComma p h)]

/-- C4: `formatQuery` leaves no occurrence of `"=,"` in its output (every
interior occurrence having been rewritten to `"=*,"`), appends `'*'`
exactly when the (rewritten) path ends with `'='`, and maps the two
specification examples as stated. -/
theorem claim_C4_theorem :
    (∀ p : JSStr, jsIncludes (formatQuery p) (str "=,") = false) ∧
    (∀ p : JSStr, p.getLast? = some '=' → formatQuery p = replaceEqComma p ++ ['*']) ∧
    formatQuery (str "Domain:type=Foo,name=") = str "Domain:type=Foo,name=*" ∧
    formatQuery (str "Domain:type=Foo,name=,sub=X") = str "Domain:type=Foo,name=*,sub=X" := by
  refine ⟨?_, formatQuery_append_star, by decide, by decide⟩
  intro p
  rw [jsIncludes_eq_false_iff _ _ (by decide)]
  exact not_eqComma_infix_formatQuery p

theorem claim_C4_witness :
    jsIncludes (formatQuery (str "a=,b")) (str "=,") = false ∧
    (str "x=").getLast? = some '=' ∧
    formatQuery (str "x=") = replaceEqComma (str "x=") ++ ['*'] :=
  ⟨claim_C4_theorem.1 _, by decide, claim_C4_theorem.2.1 _ (by decide)⟩

/-- C6: for an element none of whose metric attributes is numeric, the
metrics block of its subgroup is exactly the single constant placeholder
entry: key `jmx.const.value`, type `gauge`, value `const:1`. -/
theorem claim_C6_theorem (e : JMXElement)
    (h : e.metrics.countP (fun m => m.numeric) = 0) :
    metricsSection e = constMetricEntry ∧
    constMetricEntry =
      str "          - key: jmx.const.value \n            type: gauge \n            value: const:1 \n" := by
  refine ⟨?_, rfl⟩
  unfold metricsSection
  rw [if_neg]
  intro hany
  rcases List.any_eq_true.1 hany with ⟨m, hm, hnum⟩
  have h0 := List.countP_eq_zero.1 h m hm
  simp only [hnum] at h0
  exact h0 trivial

theorem claim_C6_witness :
    (⟨str "a:b=c", [], [⟨str "State", false⟩]⟩ : JMXElement).metrics.countP
      (fun m => m.numeric) = 0 ∧
    (metricsSection ⟨str "a:b=c", [], [⟨str "State", false⟩]⟩ = constMetricEntry ∧
      constMetricEntry =
        str "          - key: jmx.const.value \n            type: gauge \n            value: const:1 \n") :=
  ⟨by decide, claim_C6_theorem _ (by decide)⟩

/-- C7: when the trigger line has no ASCII letter, `createInsertAction`
yields no action and `createQueryInsertions` yields no action list entry at
all; and whenever an action is produced, its edit inserts at line
`startLine + 1`, column 0. -/
theorem claim_C7_theorem (docLines : List JSStr) (startLine : Nat)
    (actionName textToInsert : JSStr) (jd : JmxDataResponse) :
    ((∀ c ∈ lineAt docLines startLine, isAsciiAlpha c = false) →
      createInsertAction actionName textToInsert docLines startLine = none ∧
      createQueryInsertions docLines startLine jd = []) ∧
    (∀ a : CodeAction,
      createInsertAction actionName textToInsert docLines startLine = some a →
      a.insertLine = startLine + 1 ∧ a.insertCol = 0) := by
  constructor
  · intro h
    have hidx : List.findIdx? isAsciiAlpha (lineAt docLines startLine) = none :=
      List.findIdx?_eq_none_iff.2 h
    constructor
    · simp only [createInsertAction, hidx]
    · simp only [createQueryInsertions, createInsertAction, hidx]
  · intro a ha
    cases hidx : List.findIdx? isAsciiAlpha (lineAt docLines startLine) with
    | none =>
      simp only [createInsertAction, hidx] at ha
      exact absurd ha (by simp)
    | some i =>
      simp only [createInsertAction, hidx] at ha
      injection ha with ha2
      rw [← ha2]
      exact ⟨rfl, rfl⟩

theorem claim_C7_witness :
    (∀ c ∈ lineAt [str " 1: -"] 0, isAsciiAlpha c = false) ∧
    (createInsertAction (str "n") (str "x") [str " 1: -"] 0 = none ∧
      createQueryInsertions [str " 1: -"] 0 jdSmall = []) :=
  ⟨by decide, (claim_C7_theorem [str " 1: -"] 0 (str "n") (str "x") jdSmall).1 (by decide)⟩

/-- C10: when the trigger line is the document's last line the inserted
snippet is the input text with a newline prepended before indenting, and
otherwise the input text itself is indented unmodified; the insertion is
always at line `startLine + 1`, column 0. -/
theorem claim_C10_theorem (docLines : List JSStr) (startLine : Nat)
    (actionName textToInsert : JSStr) (i : Nat)
    (h : (lineAt docLines startLine).findIdx? isAsciiAlpha = some i) :
    (docLines.length = startLine + 1 →
      createInsertAction actionName textToInsert docLines startLine =
        some ⟨actionName, indentJMXSnippet ('\n' :: textToInsert) i, startLine + 1, 0⟩) ∧
    (docLines.length ≠ startLine + 1 →
      createInsertAction actionName textToInsert docLines startLine =
        some ⟨actionName, indentJMXSnippet textToInsert i, startLine + 1, 0⟩) := by
  constructor
  · intro hl
    show (match (lineAt docLines startLine).findIdx? isAsciiAlpha with
      | some indent => some (⟨actionName,
          indentJMXSnippet (if docLines.length = startLine + 1 then
            '\n' :: textToInsert else textToInsert) indent,
          startLine + 1, 0⟩ : CodeAction)
      | none => none) = _
    rw [h, if_pos hl]
  · intro hl
    show (match (lineAt docLines startLine).findIdx? isAsciiAlpha with
      | some indent => some (⟨actionName,
          indentJMXSnippet (if docLines.length = startLine + 1 then
            '\n' :: textToInsert else textToInsert) indent,
          startLine + 1, 0⟩ : CodeAction)
      | none => none) = _
    rw [h, if_neg hl]

theorem claim_C10_witness :
    (lineAt [str "jmx:"] 0).findIdx? isAsciiAlpha = some 0 ∧
    ([str "jmx:"] : List JSStr).length = 0 + 1 ∧
    createInsertAction (str "n") (str "x") [str "jmx:"] 0 =
      some ⟨str "n", indentJMXSnippet ('\n' :: str "x") 0, 0 + 1, 0⟩ ∧
    ([str "jmx:", str "a"] : List JSStr).length ≠ 0 + 1 ∧
    createInsertAction (str "n") (str "x") [str "jmx:", str "a"] 0 =
      some ⟨str "n", indentJMXSnippet (str "x") 0, 0 + 1, 0⟩ :=
  ⟨by decide, by decide,
   (claim_C10_theorem [str "jmx:"] 0 (str "n") (str "x") 0 (by decide)).1 (by decide),
   by decide,
   (claim_C10_theorem [str "jmx:", str "a"] 0 (str "n") (str "x") 0 (by decide)).2 (by decide)⟩

/-- C9: the two revisions of `provideCodeActions` are not equivalent — on
the one-line document `jmx:` with the cursor on line 0 and scrape data
cached, revision A (gating on a line containing `"jmx:"`) offers an
insertion action while revision B (gating on a `"metrics:"` line under a
`jmx`/`subgroups` parent) offers none. -/
theorem claim_C9_theorem :
    provideCodeActionsA [str "jmx:"] 0 (some jdSmall) ≠ [] ∧
    provideCodeActionsB [str "jmx:"] 0 [str "response"] = [] := by
  decide

/-- C5 is refuted on the code: `createQueryInsertions` never consults the
document for already-present keys, so after applying the offered edit the
re-run on the updated document offers the very same non-empty fragment
again instead of an empty one. -/
theorem claim_C5_theorem :
    (provideCodeActionsA jmxDoc0 0 (some jdSmall)).map (fun a => a.insertText) =
      [insertedTextC5] ∧
    provideCodeActionsA jmxDoc1 0 (some jdSmall) ≠ [] ∧
    (provideCodeActionsA jmxDoc1 0 (some jdSmall)).map (fun a => a.insertText) =
      [indentJMXSnippet (yamlFull jdSmall.jmxData) 0] ∧
    yamlFull jdSmall.jmxData ≠ [] := by
  decide

theorem mapM_except_error {α β : Type} (f : α → Except Unit β) (l : List α)
    (h : ∃ a ∈ l, f a = Except.error ()) : l.mapM f = Except.error () := by
  induction l with
  | nil => rcases h with ⟨a, ha, -⟩; cases ha
  | cons a l' ih =>
    rw [List.mapM_cons]
    rcases h with ⟨b, hb, hberr⟩
    rcases List.mem_cons.1 hb with rfl | hmem
    · rw [hberr]; rfl
    · cases hfa : f a with
      | error u => rfl
      | ok v =>
        have : l'.mapM f = Except.error () := ih ⟨b, hmem, hberr⟩
        rw [this]
        rfl

theorem mapM_except_ok {α β : Type} (f : α → Except Unit β) (l : List α)
    (h : ∀ a ∈ l, ∃ b, f a = Except.ok b) : ∃ bs, l.mapM f = Except.ok bs := by
  induction l with
  | nil => exact ⟨[], rfl⟩
  | cons a l' ih =>
    rcases h a (List.mem_cons_self a l') with ⟨b, hb⟩
    rcases ih (fun x hx => h x (List.mem_cons_of_mem a hx)) with ⟨bs, hbs⟩
    refine ⟨b :: bs, ?_⟩
    rw [List.mapM_cons, hb, hbs]
    rfl

theorem rawAttrDim_error (m : RawJMXMetric) (h : m.name = none) :
    rawAttrDim m = Except.error () := by
  simp [rawAttrDim, h, req]

theorem rawMetricEntry_error (fullPath : JSStr) (m : RawJMXMetric) (h : m.name = none) :
    rawMetricEntry fullPath m = Except.error () := by
  simp [rawMetricEntry, h, req]

theorem rawSubgroupChunk_error (dimsHeader : JSStr) (e : RawJMXElement)
    (h : isMalformedRaw e = true) : rawSubgroupChunk dimsHeader e = Except.error () := by
  obtain ⟨fp, props, mets⟩ := e
  cases fp with
  | none => rfl
  | some fullPath =>
    cases props with
    | none => rfl
    | some properties =>
      cases mets with
      | none => rfl
      | some metrics =>
        simp only [isMalformedRaw, Option.isNone_some, Bool.false_or,
          Option.getD_some] at h
        rcases List.any_eq_true.1 h with ⟨m, hm, hname⟩
        rw [Option.isNone_iff_eq_none] at hname
        show (do
          let attrDims ← (metrics.filter fun m => !(m.numeric.getD false)).mapM rawAttrDim
          let metEntries ← (metrics.filter fun m => m.numeric.getD false).mapM
            (rawMetricEntry fullPath)
          let metsStr := if (metrics.filter fun m => m.numeric.getD false).isEmpty then
            constMetricEntry else metEntries.flatten
          pure (str "       - subgroup: " ++ fullPath ++
            str "\n         query: " ++ formatQuery fullPath ++ str "\n" ++
            dimsHeader ++ properties.flatMap propDim ++ attrDims.flatten ++
            str "         metrics: \n" ++ metsStr) : Except Unit JSStr) = Except.error ()
        cases hnum : m.numeric.getD false with
        | true =>
          have herr : (metrics.filter fun m => m.numeric.getD false).mapM
              (rawMetricEntry fullPath) = Except.error () :=
            mapM_except_error _ _
              ⟨m, List.mem_filter.2 ⟨hm, hnum⟩, rawMetricEntry_error _ _ hname⟩
          cases hAttr : (metrics.filter fun m => !(m.numeric.getD false)).mapM rawAttrDim with
          | error u => cases u; rfl
          | ok vs => rw [herr]; rfl
        | false =>
          have herr : (metrics.filter fun m => !(m.numeric.getD false)).mapM rawAttrDim =
              Except.error () :=
            mapM_except_error _ _
              ⟨m, List.mem_filter.2 ⟨hm, by rw [hnum]; rfl⟩, rawAttrDim_error _ hname⟩
          rw [herr]
          rfl

/-- C8 counterexample: a batch of a well-formed element followed by an
element whose `metrics` field is absent does not produce a fragment with
the well-formed element's entries — the whole loop throws, while the
well-formed element alone succeeds. -/
theorem claim_C8_counterexample :
    exceptIsError (rawQiLoop [goodRawElem, badRawElem] 0 0) = true ∧
    exceptIsError (rawQiLoop [goodRawElem] 0 0) = false := by
  decide

/-- C8 as amended: a malformed scraped element (absent `fullPath`,
`properties` or `metrics`, or a metric with an absent `name`) is not
skipped — the uncaught exception aborts fragment generation for the whole
batch, whatever the loop state, so no entries are emitted for any element. -/
theorem claim_C8_theorem (es : List RawJMXElement) (g sc : Nat)
    (h : ∃ e ∈ es, isMalformedRaw e = true) :
    rawQiLoop es g sc = Except.error () := by
  induction es generalizing g sc with
  | nil => rcases h with ⟨e, he, -⟩; cases he
  | cons e es' ih =>
    rcases h with ⟨e', he', hm⟩
    rcases List.mem_cons.1 he' with rfl | hmem
    · unfold rawQiLoop
      split
      · rw [rawSubgroupChunk_error _ _ hm]; rfl
      · rw [rawSubgroupChunk_error _ _ hm]; rfl
    · unfold rawQiLoop
      split
      · cases hc : rawSubgroupChunk dimsHeaderIf e with
        | error u => cases u; rfl
        | ok s => rw [ih _ _ ⟨e', hmem, hm⟩]; rfl
      · cases hc : rawSubgroupChunk dimsHeaderElse e with
        | error u => cases u; rfl
        | ok s => rw [ih _ _ ⟨e', hmem, hm⟩]; rfl

theorem claim_C8_witness :
    (∃ e ∈ [badRawElem], isMalformedRaw e = true) ∧
    rawQiLoop [badRawElem] 0 0 = Except.error () :=
  ⟨⟨badRawElem, by decide, by decide⟩,
   claim_C8_theorem [badRawElem] 0 0 ⟨badRawElem, by decide, by decide⟩⟩

theorem joinNL_nil : joinNL [] = [] := rfl

theorem joinNL_cons (l : JSStr) (ls : List JSStr) :
    joinNL (l :: ls) = l ++ '\n' :: joinNL ls := by
  simp [joinNL, List.flatMap_cons]

theorem joinNL_append (a b : List JSStr) : joinNL (a ++ b) = joinNL a ++ joinNL b :=
  List.flatMap_append a b _

theorem linesOf_append_cons (a b : JSStr) (h : '\n' ∉ a) :
    linesOf (a ++ '\n' :: b) = a :: linesOf b := by
  induction a with
  | nil =>
    show linesOf ('\n' :: b) = [] :: linesOf b
    rw [linesOf, if_pos rfl]
  | cons c a' ih =>
    have hc : ¬ c = '\n' := fun hh => h (hh ▸ List.mem_cons_self c a')
    have h' : '\n' ∉ a' := fun hh => h (List.mem_cons_of_mem c hh)
    show linesOf (c :: (a' ++ '\n' :: b)) = (c :: a') :: linesOf b
    rw [linesOf, if_neg hc, ih h']

theorem linesOf_joinNL_append (ls : List JSStr) (rest : JSStr)
    (h : ∀ l ∈ ls, '\n' ∉ l) :
    linesOf (joinNL ls ++ rest) = ls ++ linesOf rest := by
  induction ls with
  | nil => simp [joinNL]
  | cons l ls' ih =>
    rw [joinNL_cons, List.append_assoc,
      show ('\n' :: joinNL ls') ++ rest = '\n' :: (joinNL ls' ++ rest) from rfl,
      linesOf_append_cons _ _ (h l (List.mem_cons_self l ls')),
      ih fun x hx => h x (List.mem_cons_of_mem l hx)]
    rfl

theorem flatMap_joinNL {α : Type} (g : α → List JSStr) (xs : List α) :
    xs.flatMap (fun x => joinNL (g x)) = joinNL (xs.flatMap g) := by
  induction xs with
  | nil => rfl
  | cons x xs' ih => rw [List.flatMap_cons, List.flatMap_cons, joinNL_append, ih]

theorem propDim_joinNL (kv : JSStr × JSStr) :
    propDim kv = joinNL [str "          - key: " ++ jsToLower kv.1,
      str "            value: property:" ++ kv.1] := by
  simp only [propDim, joinNL, List.flatMap_cons, List.flatMap_nil,
    List.append_nil, List.append_assoc]
  rfl

theorem attrDim_joinNL (m : JMXMetric) :
    attrDim m = joinNL [str "          - key: " ++ jsToLower m.name,
      str "            value: attribute:" ++ m.name] := by
  simp only [attrDim, joinNL, List.flatMap_cons, List.flatMap_nil,
    List.append_nil, List.append_assoc]
  rfl

theorem metricEntry_joinNL (fullPath : JSStr) (m : JMXMetric) :
    metricEntry fullPath m =
      joinNL [str "          - key: " ++ trueMetricKeyOf fullPath m.name,
        str "            type: gauge ",
        str "            value: attribute:" ++ m.name] := by
  simp only [metricEntry, joinNL, List.flatMap_cons, List.flatMap_nil,
    List.append_nil, List.append_assoc]
  rfl

theorem constMetricEntry_joinNL :
    constMetricEntry = joinNL [str "          - key: jmx.const.value ",
      str "            type: gauge ", str "            value: const:1 "] := by
  decide

theorem groupHeader_joinNL (n : Nat) :
    groupHeader n = joinNL (groupHeaderLines n) := by
  simp only [groupHeader, groupHeaderLines, joinNL, List.flatMap_cons,
    List.flatMap_nil, List.append_nil, List.append_assoc]
  rfl

theorem metricsSection_joinNL (e : JMXElement) :
    metricsSection e = joinNL (if e.metrics.any fun m => m.numeric then
      (e.metrics.filter fun m => m.numeric).flatMap (fun m =>
        [str "          - key: " ++ trueMetricKeyOf e.fullPath m.name,
         str "            type: gauge ",
         str "            value: attribute:" ++ m.name])
      else [str "          - key: jmx.const.value ",
        str "            type: gauge ", str "            value: const:1 "]) := by
  unfold metricsSection
  split
  · rw [← flatMap_joinNL]
    exact List.flatMap_congr fun m _ => metricEntry_joinNL e.fullPath m
  · exact constMetricEntry_joinNL

theorem dimsSection_joinNL (e : JMXElement) :
    dimsSection e = joinNL (e.properties.flatMap (fun kv =>
      [str "          - key: " ++ jsToLower kv.1,
       str "            value: property:" ++ kv.1]) ++
      (e.metrics.filter fun m => !m.numeric).flatMap (fun m =>
        [str "          - key: " ++ jsToLower m.name,
         str "            value: attribute:" ++ m.name])) := by
  unfold dimsSection
  rw [joinNL_append, ← flatMap_joinNL, ← flatMap_joinNL]
  exact congrArg₂ (· ++ ·)
    (List.flatMap_congr fun kv _ => propDim_joinNL kv)
    (List.flatMap_congr fun m _ => attrDim_joinNL m)

theorem subgroupChunk_joinNL (dimsLine : JSStr) (e : JMXElement) :
    subgroupChunk (dimsLine ++ ['\n']) e = joinNL (chunkLines dimsLine e) := by
  unfold subgroupChunk chunkLines
  rw [dimsSection_joinNL, metricsSection_joinNL]
  simp only [joinNL_append, joinNL_cons, joinNL_nil, List.append_assoc,
    List.append_nil, List.cons_append, List.singleton_append]
  rfl

/-- Line-level counterpart of `qiLoop`. -/
def qiLines : List JMXElement → Nat → Nat → List JSStr
  | [], _, _ => []
  | e :: es, groupCount, subgroupCount =>
    if subgroupCount < 10 then
      chunkLines dimsLineIf e ++ qiLines es groupCount (subgroupCount + 1)
    else
      groupHeaderLines (groupCount + 1) ++ chunkLines dimsLineElse e ++
        qiLines es (groupCount + 1) 1

theorem qiLines_cons (e : JMXElement) (es : List JMXElement) (g sc : Nat) :
    qiLines (e :: es) g sc = if sc < 10 then
      chunkLines dimsLineIf e ++ qiLines es g (sc + 1)
    else groupHeaderLines (g + 1) ++ chunkLines dimsLineElse e ++
      qiLines es (g + 1) 1 := rfl

theorem qiLoop_eq_joinNL (es : List JMXElement) (g sc : Nat) :
    qiLoop es g sc = joinNL (qiLines es g sc) := by
  induction es generalizing g sc with
  | nil => rfl
  | cons e es' ih =>
    unfold qiLoop qiLines
    split
    · rw [joinNL_append, ← subgroupChunk_joinNL, ih]
      rfl
    · rw [joinNL_append, joinNL_append, ← subgroupChunk_joinNL, ← groupHeader_joinNL,
        ih]
      simp only [List.append_assoc]
      rfl

theorem yamlFull_eq_joinNL (jd : JmxData) :
    yamlFull jd = joinNL (str "  groups:" :: groupHeaderLines 0 ++
      qiLines (elementsOf jd) 0 0) := by
  unfold yamlFull
  rw [qiLoop_eq_joinNL]
  simp only [List.cons_append, joinNL_cons, joinNL_append, ← groupHeader_joinNL]
  rfl

theorem qiLines_split (es : List JMXElement) (g sc : Nat) (hsc : sc < 10) :
    qiLines es g sc = (es.take (10 - sc)).flatMap (chunkLines dimsLineIf) ++
      qiLines (es.drop (10 - sc)) g 10 := by
  induction es generalizing sc with
  | nil => simp [qiLines]
  | cons e es' ih =>
    have h10 : 10 - sc = (9 - sc) + 1 := by omega
    rw [h10, List.take_succ_cons, List.drop_succ_cons, List.flatMap_cons,
      List.append_assoc, qiLines_cons, if_pos hsc]
    by_cases h9 : sc + 1 < 10
    · rw [ih (sc + 1) h9]
      have h9' : 10 - (sc + 1) = 9 - sc := by omega
      rw [h9']
    · have hsc9 : sc = 9 := by omega
      subst hsc9
      simp

theorem isGroupLine_subgroup (t : JSStr) :
    isGroupLine (str "       - subgroup: " ++ t) = false := rfl

theorem isSubgroupLine_subgroup (t : JSStr) :
    isSubgroupLine (str "       - subgroup: " ++ t) = true := by
  unfold isSubgroupLine
  rw [List.isPrefixOf_iff_prefix]
  exact List.prefix_append _ _

theorem isGroupLine_query (t : JSStr) :
    isGroupLine (str "         query: " ++ t) = false := rfl

theorem isSubgroupLine_query (t : JSStr) :
    isSubgroupLine (str "         query: " ++ t) = false := rfl

theorem isGroupLine_key (t : JSStr) :
    isGroupLine (str "          - key: " ++ t) = false := rfl

theorem isSubgroupLine_key (t : JSStr) :
    isSubgroupLine (str "          - key: " ++ t) = false := rfl

theorem isGroupLine_valueProp (t : JSStr) :
    isGroupLine (str "            value: property:" ++ t) = false := rfl

theorem isSubgroupLine_valueProp (t : JSStr) :
    isSubgroupLine (str "            value: property:" ++ t) = false := rfl

theorem isGroupLine_valueAttr (t : JSStr) :
    isGroupLine (str "            value: attribute:" ++ t) = false := rfl

theorem isSubgroupLine_valueAttr (t : JSStr) :
    isSubgroupLine (str "            value: attribute:" ++ t) = false := rfl

theorem isGroupLine_header (t : JSStr) :
    isGroupLine (str "  - group: group_" ++ t) = true := by
  unfold isGroupLine
  rw [List.isPrefixOf_iff_prefix,
    show str "  - group: group_" ++ t = str "  - group: " ++ (str "group_" ++ t) from rfl]
  exact List.prefix_append _ _

theorem isSubgroupLine_header (t : JSStr) :
    isSubgroupLine (str "  - group: group_" ++ t) = false := rfl

theorem countP_flatMap_sum {α : Type} (p : JSStr → Bool) (f : α → List JSStr)
    (xs : List α) :
    (xs.flatMap f).countP p = (xs.map fun x => (f x).countP p).sum := by
  induction xs with
  | nil => rfl
  | cons x xs' ih =>
    rw [List.flatMap_cons, List.countP_append, List.map_cons, List.sum_cons, ih]

theorem countP_flatMap_const_one {α : Type} (p : JSStr → Bool) (f : α → List JSStr)
    (xs : List α) (h : ∀ x ∈ xs, (f x).countP p = 1) :
    (xs.flatMap f).countP p = xs.length := by
  rw [countP_flatMap_sum]
  induction xs with
  | nil => rfl
  | cons x xs' ih =>
    rw [List.map_cons, List.sum_cons, h x (List.mem_cons_self x xs'),
      ih fun y hy => h y (List.mem_cons_of_mem x hy)]
    simp [Nat.add_comm]

theorem countP_flatMap_zero {α : Type} (p : JSStr → Bool) (f : α → List JSStr)
    (xs : List α) (h : ∀ x ∈ xs, ∀ l ∈ f x, p l = false) :
    (xs.flatMap f).countP p = 0 := by
  refine List.countP_eq_zero.2 ?_
  intro l hl
  rcases List.mem_flatMap.1 hl with ⟨x, hx, hlx⟩
  simp [h x hx l hlx]

theorem subgroupCountsAux_cons (l : JSStr) (ls : List JSStr) (cur : Nat) :
    subgroupCountsAux (l :: ls) cur = if isGroupLine l then
      cur :: subgroupCountsAux ls 0
    else subgroupCountsAux ls (if isSubgroupLine l then cur + 1 else cur) := rfl

theorem subgroupCountsAux_append_nogroup (a b : List JSStr) (cur : Nat)
    (h : ∀ l ∈ a, isGroupLine l = false) :
    subgroupCountsAux (a ++ b) cur =
      subgroupCountsAux b (cur + a.countP isSubgroupLine) := by
  induction a generalizing cur with
  | nil => simp
  | cons l a' ih =>
    have hl := h l (List.mem_cons_self l a')
    show subgroupCountsAux (l :: (a' ++ b)) cur = _
    rw [subgroupCountsAux_cons, hl]
    simp only [Bool.false_eq_true, if_false]
    rw [ih _ fun x hx => h x (List.mem_cons_of_mem l hx)]
    congr 1
    rw [List.countP_cons]
    cases hsub : isSubgroupLine l <;> (simp [hsub]; try omega)

theorem subgroupCountsAux_group_cons (l : JSStr) (ls : List JSStr) (cur : Nat)
    (h : isGroupLine l = true) :
    subgroupCountsAux (l :: ls) cur = cur :: subgroupCountsAux ls 0 := by
  rw [subgroupCountsAux_cons, h]
  simp

theorem linesOf_joinNL (ls : List JSStr) (h : ∀ l ∈ ls, '\n' ∉ l) :
    linesOf (joinNL ls) = ls ++ [[]] := by
  have h2 := linesOf_joinNL_append ls [] h
  rw [List.append_nil] at h2
  exact h2

theorem mem_pair {l a b : JSStr} (h : l ∈ [a, b]) : l = a ∨ l = b := by
  simp only [List.mem_cons, List.not_mem_nil, or_false] at h
  exact h

theorem mem_triple {l a b c : JSStr} (h : l ∈ [a, b, c]) : l = a ∨ l = b ∨ l = c := by
  simp only [List.mem_cons, List.not_mem_nil, or_false] at h
  exact h

theorem chunkLines_isGroupLine_false (dl : JSStr) (e : JMXElement)
    (hdl : isGroupLine dl = false) :
    ∀ l ∈ chunkLines dl e, isGroupLine l = false := by
  intro l hl
  unfold chunkLines at hl
  rcases List.mem_append.1 hl with hl | hM
  · rcases List.mem_append.1 hl with hl | hm
    · rcases List.mem_append.1 hl with hl | hQ
      · rcases List.mem_append.1 hl with h3 | hP
        · rcases mem_triple h3 with rfl | rfl | rfl
          · exact isGroupLine_subgroup _
          · exact isGroupLine_query _
          · exact hdl
        · rcases List.mem_flatMap.1 hP with ⟨kv, -, hmem⟩
          rcases mem_pair hmem with rfl | rfl
          · exact isGroupLine_key _
          · exact isGroupLine_valueProp _
      · rcases List.mem_flatMap.1 hQ with ⟨m, -, hmem⟩
        rcases mem_pair hmem with rfl | rfl
        · exact isGroupLine_key _
        · exact isGroupLine_valueAttr _
    · rcases List.mem_cons.1 hm with rfl | h2
      · decide
      · cases h2
  · split at hM
    · rcases List.mem_flatMap.1 hM with ⟨m, -, hmem⟩
      rcases mem_triple hmem with rfl | rfl | rfl
      · exact isGroupLine_key _
      · decide
      · exact isGroupLine_valueAttr _
    · rcases mem_triple hM with rfl | rfl | rfl
      · decide
      · decide
      · decide

theorem chunkLines_countP_sub (dl : JSStr) (e : JMXElement)
    (hdl : isSubgroupLine dl = false) :
    (chunkLines dl e).countP isSubgroupLine = 1 := by
  unfold chunkLines
  simp only [List.countP_append]
  have h1 : ([str "       - subgroup: " ++ e.fullPath,
      str "         query: " ++ formatQuery e.fullPath, dl]).countP isSubgroupLine = 1 := by
    rw [List.countP_cons, List.countP_cons, List.countP_cons, List.countP_nil,
      isSubgroupLine_subgroup, isSubgroupLine_query, hdl]
    decide
  have h2 : (e.properties.flatMap fun kv =>
      [str "          - key: " ++ jsToLower kv.1,
       str "            value: property:" ++ kv.1]).countP isSubgroupLine = 0 :=
    countP_flatMap_zero _ _ _ fun kv _ l hl => by
      rcases mem_pair hl with rfl | rfl
      · exact isSubgroupLine_key _
      · exact isSubgroupLine_valueProp _
  have h3 : ((e.metrics.filter fun m => !m.numeric).flatMap fun m =>
      [str "          - key: " ++ jsToLower m.name,
       str "            value: attribute:" ++ m.name]).countP isSubgroupLine = 0 :=
    countP_flatMap_zero _ _ _ fun m _ l hl => by
      rcases mem_pair hl with rfl | rfl
      · exact isSubgroupLine_key _
      · exact isSubgroupLine_valueAttr _
  have h4 : ([str "         metrics: "] : List JSStr).countP isSubgroupLine = 0 := by
    decide
  have h5 : (if (e.metrics.any fun m => m.numeric) = true then
      (e.metrics.filter fun m => m.numeric).flatMap (fun m =>
        [str "          - key: " ++ trueMetricKeyOf e.fullPath m.name,
         str "            type: gauge ",
         str "            value: attribute:" ++ m.name])
      else [str "          - key: jmx.const.value ",
        str "            type: gauge ",
        str "            value: const:1 "]).countP isSubgroupLine = 0 := by
    split
    · exact countP_flatMap_zero _ _ _ fun m _ l hl => by
        rcases mem_triple hl with rfl | rfl | rfl
        · exact isSubgroupLine_key _
        · decide
        · exact isSubgroupLine_valueAttr _
    · decide
  rw [h1, h2, h3, h4, h5]

theorem not_mem_append {c : Char} {a b : JSStr} (ha : c ∉ a) (hb : c ∉ b) :
    c ∉ a ++ b := fun h => (List.mem_append.1 h).elim ha hb

theorem mem_replaceEqComma (p : JSStr) (c : Char) (h : c ∈ replaceEqComma p) :
    c ∈ p ∨ c = '*' := by
  induction p using replaceEqComma.induct with
  | case1 => cases h
  | case2 rest ih =>
    rcases List.mem_cons.1 h with rfl | h
    · exact Or.inl (List.mem_cons_self _ _)
    rcases List.mem_cons.1 h with rfl | h
    · exact Or.inr rfl
    rcases List.mem_cons.1 h with rfl | h
    · exact Or.inl (List.mem_cons_of_mem _ (List.mem_cons_self _ _))
    · rcases ih h with hm | hs
      · exact Or.inl (List.mem_cons_of_mem _ (List.mem_cons_of_mem _ hm))
      · exact Or.inr hs
  | case3 d rest hg ih =>
    rw [replaceEqComma_cons_of_ne d rest hg] at h
    rcases List.mem_cons.1 h with rfl | h
    · exact Or.inl (List.mem_cons_self _ _)
    · rcases ih h with hm | hs
      · exact Or.inl (List.mem_cons_of_mem _ hm)
      · exact Or.inr hs

theorem formatQuery_nlFree (p : JSStr) (h : '\n' ∉ p) : '\n' ∉ formatQuery p := by
  have hrep : '\n' ∉ replaceEqComma p := by
    intro hm
    rcases mem_replaceEqComma p '\n' hm with hm | hs
    · exact h hm
    · cases hs
  rw [show formatQuery p = if (replaceEqComma p).getLast? = some '=' then
    replaceEqComma p ++ ['*'] else replaceEqComma p from rfl]
  split
  · exact not_mem_append hrep (by decide)
  · exact hrep

theorem ConvertMetricKey_nlFree (p : JSStr) : '\n' ∉ ConvertMetricKey p := by
  intro hm
  have := mem_ConvertMetricKey p '\n' hm
  exact absurd this (by decide)

theorem trueMetricKeyOf_nlFree (fullPath name : JSStr) (hn : '\n' ∉ name) :
    '\n' ∉ trueMetricKeyOf fullPath name := by
  have hlow := not_mem_jsToLower_newline name hn
  rw [show trueMetricKeyOf fullPath name =
    if 250 < (ConvertMetricKey fullPath ++ jsToLower name).length then
      jsSlice0 (ConvertMetricKey fullPath) (249 - ((jsToLower name).length : Int)) ++
        ('.' :: jsToLower name)
    else ConvertMetricKey fullPath ++ jsToLower name from rfl]
  split
  · refine not_mem_append (fun hm => ?_) (fun hm => ?_)
    · exact ConvertMetricKey_nlFree fullPath (mem_jsSlice0 _ _ _ hm)
    · rcases List.mem_cons.1 hm with hc | hc
      · cases hc
      · exact hlow hc
  · exact not_mem_append (ConvertMetricKey_nlFree fullPath) hlow

theorem chunkLines_nlFree (dl : JSStr) (e : JMXElement)
    (hdl : '\n' ∉ dl) (he : elemNlFree e) :
    ∀ l ∈ chunkLines dl e, '\n' ∉ l := by
  obtain ⟨hfp, hprops, hmets⟩ := he
  intro l hl
  unfold chunkLines at hl
  rcases List.mem_append.1 hl with hl | hM
  · rcases List.mem_append.1 hl with hl | hm
    · rcases List.mem_append.1 hl with hl | hQ
      · rcases List.mem_append.1 hl with h3 | hP
        · rcases mem_triple h3 with rfl | rfl | rfl
          · exact not_mem_append (by decide) hfp
          · exact not_mem_append (by decide) (formatQuery_nlFree _ hfp)
          · exact hdl
        · rcases List.mem_flatMap.1 hP with ⟨kv, hkv, hmem⟩
          rcases mem_pair hmem with rfl | rfl
          · exact not_mem_append (by decide)
              (not_mem_jsToLower_newline _ (hprops kv hkv))
          · exact not_mem_append (by decide) (hprops kv hkv)
      · rcases List.mem_flatMap.1 hQ with ⟨m, hm2, hmem⟩
        have hname := hmets m (List.mem_of_mem_filter hm2)
        rcases mem_pair hmem with rfl | rfl
        · exact not_mem_append (by decide) (not_mem_jsToLower_newline _ hname)
        · exact not_mem_append (by decide) hname
    · rcases List.mem_cons.1 hm with rfl | h2
      · decide
      · cases h2
  · split at hM
    · rcases List.mem_flatMap.1 hM with ⟨m, hm2, hmem⟩
      have hname := hmets m (List.mem_of_mem_filter hm2)
      rcases mem_triple hmem with rfl | rfl | rfl
      · exact not_mem_append (by decide) (trueMetricKeyOf_nlFree _ _ hname)
      · decide
      · exact not_mem_append (by decide) hname
    · rcases mem_triple hM with rfl | rfl | rfl
      · decide
      · decide
      · decide

theorem subgroupCountsAux_skip (l : JSStr) (ls : List JSStr) (cur : Nat)
    (hg : isGroupLine l = false) (hs : isSubgroupLine l = false) :
    subgroupCountsAux (l :: ls) cur = subgroupCountsAux ls cur := by
  rw [subgroupCountsAux_cons, hg, hs]
  simp

theorem flatMap_chunkIf_nlFree (xs : List JMXElement) (hxs : ∀ e ∈ xs, elemNlFree e) :
    ∀ l ∈ xs.flatMap (chunkLines dimsLineIf), '\n' ∉ l := by
  intro l hl
  rcases List.mem_flatMap.1 hl with ⟨x, hx, hlx⟩
  exact chunkLines_nlFree _ _ (by decide) (hxs x hx) l hlx

theorem flatMap_chunkIf_noGroup (xs : List JMXElement) :
    ∀ l ∈ xs.flatMap (chunkLines dimsLineIf), isGroupLine l = false := by
  intro l hl
  rcases List.mem_flatMap.1 hl with ⟨x, hx, hlx⟩
  exact chunkLines_isGroupLine_false _ _ (by decide) l hlx

theorem flatMap_chunkIf_countP (xs : List JMXElement) :
    (xs.flatMap (chunkLines dimsLineIf)).countP isSubgroupLine = xs.length :=
  countP_flatMap_const_one _ _ _ fun x _ => chunkLines_countP_sub _ _ (by decide)

theorem filter_eq_nil_of_false {p : JSStr → Bool} {l : List JSStr}
    (h : ∀ x ∈ l, p x = false) : l.filter p = [] :=
  List.filter_eq_nil_iff.2 fun a ha => by simp [h a ha]

/-- C3: for scrape data holding exactly 23 elements (whose string fields
are newline-free), the generated fragment's lines contain exactly three
group entries, named `group_0`, `group_1` and `group_2`, holding 10, 10
and 3 subgroup entries respectively — a new group is started after every
10 subgroups. -/
theorem claim_C3_theorem (jd : JmxData)
    (h23 : (elementsOf jd).length = 23)
    (hnl : ∀ e ∈ elementsOf jd, elemNlFree e) :
    (linesOf (yamlFull jd)).filter isGroupLine =
      [str "  - group: group_0", str "  - group: group_1",
       str "  - group: group_2"] ∧
    subgroupCounts (linesOf (yamlFull jd)) = [10, 10, 3] := by
  have hd10ne : (elementsOf jd).drop 10 ≠ [] := by
    intro h
    have h2 := congrArg List.length h
    rw [List.length_drop, h23] at h2
    simp at h2
  obtain ⟨e10, r1, hd10⟩ := List.exists_cons_of_ne_nil hd10ne
  have hr1len : r1.length = 12 := by
    have h2 := congrArg List.length hd10
    rw [List.length_drop, h23] at h2
    simpa using h2
  have hd9ne : r1.drop 9 ≠ [] := by
    intro h
    have h2 := congrArg List.length h
    rw [List.length_drop, hr1len] at h2
    simp at h2
  obtain ⟨e20, r2, hd9⟩ := List.exists_cons_of_ne_nil hd9ne
  have hr2len : r2.length = 2 := by
    have h2 := congrArg List.length hd9
    rw [List.length_drop, hr1len] at h2
    simpa using h2
  have hmem_drop : ∀ e ∈ e10 :: r1, e ∈ elementsOf jd := by
    rw [← hd10]
    exact fun e he => List.drop_subset _ _ he
  have hmem_drop9 : ∀ e ∈ e20 :: r2, e ∈ r1 := by
    rw [← hd9]
    exact fun e he => List.drop_subset _ _ he
  have hsubA : ∀ e ∈ (elementsOf jd).take 10, elemNlFree e :=
    fun e he => hnl e (List.take_subset _ _ he)
  have h10nl : elemNlFree e10 := hnl _ (hmem_drop e10 (List.mem_cons_self _ _))
  have hsubB : ∀ e ∈ r1.take 9, elemNlFree e := fun e he =>
    hnl e (hmem_drop e (List.mem_cons_of_mem _ (List.take_subset _ _ he)))
  have h20nl : elemNlFree e20 :=
    hnl _ (hmem_drop e20 (List.mem_cons_of_mem _ (hmem_drop9 e20 (List.mem_cons_self _ _))))
  have hsubC : ∀ e ∈ r2, elemNlFree e := fun e he =>
    hnl e (hmem_drop e (List.mem_cons_of_mem _ (hmem_drop9 e (List.mem_cons_of_mem _ he))))
  have hg0 : groupHeaderLines 0 = [str "  - group: group_0", str "    subgroups: "] := by
    decide
  have hg1 : groupHeaderLines 1 = [str "  - group: group_1", str "    subgroups: "] := by
    decide
  have hg2 : groupHeaderLines 2 = [str "  - group: group_2", str "    subgroups: "] := by
    decide
  have hE1nl : ∀ l ∈ chunkLines dimsLineElse e10, '\n' ∉ l :=
    chunkLines_nlFree _ _ (by decide) h10nl
  have hE1ng : ∀ l ∈ chunkLines dimsLineElse e10, isGroupLine l = false :=
    chunkLines_isGroupLine_false _ _ (by decide)
  have hE1c : (chunkLines dimsLineElse e10).countP isSubgroupLine = 1 :=
    chunkLines_countP_sub _ _ (by decide)
  have hE2nl : ∀ l ∈ chunkLines dimsLineElse e20, '\n' ∉ l :=
    chunkLines_nlFree _ _ (by decide) h20nl
  have hE2ng : ∀ l ∈ chunkLines dimsLineElse e20, isGroupLine l = false :=
    chunkLines_isGroupLine_false _ _ (by decide)
  have hE2c : (chunkLines dimsLineElse e20).countP isSubgroupLine = 1 :=
    chunkLines_countP_sub _ _ (by decide)
  have hQ : qiLines (elementsOf jd) 0 0 =
      ((elementsOf jd).take 10).flatMap (chunkLines dimsLineIf) ++
      (groupHeaderLines 1 ++ chunkLines dimsLineElse e10 ++
        ((r1.take 9).flatMap (chunkLines dimsLineIf) ++
          (groupHeaderLines 2 ++ chunkLines dimsLineElse e20 ++
            r2.flatMap (chunkLines dimsLineIf)))) := by
    rw [qiLines_split _ _ _ (by norm_num)]
    simp only [Nat.sub_zero]
    rw [hd10, qiLines_cons, if_neg (by norm_num)]
    rw [qiLines_split _ _ _ (by norm_num)]
    simp only [show 10 - 1 = 9 from rfl]
    rw [hd9, qiLines_cons, if_neg (by norm_num)]
    rw [qiLines_split _ _ _ (by norm_num)]
    simp only [show 10 - 1 = 9 from rfl]
    rw [List.take_of_length_le (show r2.length ≤ 9 by omega),
      List.drop_eq_nil_of_le (show r2.length ≤ 9 by omega)]
    simp only [show qiLines ([] : List JMXElement) 2 10 = [] from rfl,
      List.append_nil, List.append_assoc]
  have hAcount : (((elementsOf jd).take 10).flatMap
      (chunkLines dimsLineIf)).countP isSubgroupLine = 10 := by
    rw [flatMap_chunkIf_countP, List.length_take, h23]
    decide
  have hBcount : ((r1.take 9).flatMap
      (chunkLines dimsLineIf)).countP isSubgroupLine = 9 := by
    rw [flatMap_chunkIf_countP, List.length_take, hr1len]
    decide
  have hCcount : (r2.flatMap (chunkLines dimsLineIf)).countP isSubgroupLine = 2 := by
    rw [flatMap_chunkIf_countP, hr2len]
  have hLnl : ∀ l ∈ str "  groups:" :: groupHeaderLines 0 ++
      qiLines (elementsOf jd) 0 0, '\n' ∉ l := by
    rw [hQ, hg0]
    intro l hl
    rcases List.mem_cons.1 hl with rfl | hl
    · decide
    rcases List.mem_append.1 hl with hl | hl
    · rcases mem_pair hl with rfl | rfl
      · decide
      · decide
    rcases List.mem_append.1 hl with hl | hl
    · exact flatMap_chunkIf_nlFree _ hsubA l hl
    rcases List.mem_append.1 hl with hl | hl
    · rcases List.mem_append.1 hl with hl | hl
      · rw [hg1] at hl
        rcases mem_pair hl with rfl | rfl
        · decide
        · decide
      · exact hE1nl l hl
    rcases List.mem_append.1 hl with hl | hl
    · exact flatMap_chunkIf_nlFree _ hsubB l hl
    rcases List.mem_append.1 hl with hl | hl
    · rcases List.mem_append.1 hl with hl | hl
      · rw [hg2] at hl
        rcases mem_pair hl with rfl | rfl
        · decide
        · decide
      · exact hE2nl l hl
    · exact flatMap_chunkIf_nlFree _ hsubC l hl
  have hlines : linesOf (yamlFull jd) =
      (str "  groups:" :: groupHeaderLines 0 ++ qiLines (elementsOf jd) 0 0) ++ [[]] := by
    rw [yamlFull_eq_joinNL]
    exact linesOf_joinNL _ hLnl
  have hfA : (((elementsOf jd).take 10).flatMap
      (chunkLines dimsLineIf)).filter isGroupLine = [] :=
    filter_eq_nil_of_false (flatMap_chunkIf_noGroup _)
  have hfB : ((r1.take 9).flatMap (chunkLines dimsLineIf)).filter isGroupLine = [] :=
    filter_eq_nil_of_false (flatMap_chunkIf_noGroup _)
  have hfC : (r2.flatMap (chunkLines dimsLineIf)).filter isGroupLine = [] :=
    filter_eq_nil_of_false (flatMap_chunkIf_noGroup _)
  have hfE1 : (chunkLines dimsLineElse e10).filter isGroupLine = [] :=
    filter_eq_nil_of_false hE1ng
  have hfE2 : (chunkLines dimsLineElse e20).filter isGroupLine = [] :=
    filter_eq_nil_of_false hE2ng
  constructor
  · rw [hlines, hQ, hg0, hg1, hg2]
    simp only [List.cons_append, List.append_assoc, List.nil_append,
      List.filter_append, List.filter_cons, hfA, hfB, hfC, hfE1, hfE2,
      show isGroupLine (str "  groups:") = false from by decide,
      show isGroupLine (str "    subgroups: ") = false from by decide,
      show isGroupLine (str "  - group: group_0") = true from by decide,
      show isGroupLine (str "  - group: group_1") = true from by decide,
      show isGroupLine (str "  - group: group_2") = true from by decide,
      show isGroupLine ([] : JSStr) = false from by decide]
    simp
  · rw [hlines, hQ, hg0, hg1, hg2]
    unfold subgroupCounts
    simp only [List.cons_append, List.append_assoc, List.nil_append]
    rw [subgroupCountsAux_skip _ _ _ (by decide) (by decide)]
    rw [subgroupCountsAux_group_cons _ _ _ (by decide)]
    rw [subgroupCountsAux_skip _ _ _ (by decide) (by decide)]
    rw [subgroupCountsAux_append_nogroup _ _ _ (flatMap_chunkIf_noGroup _)]
    rw [hAcount, Nat.zero_add]
    rw [subgroupCountsAux_group_cons _ _ _ (by decide)]
    rw [subgroupCountsAux_skip _ _ _ (by decide) (by decide)]
    rw [subgroupCountsAux_append_nogroup _ _ _ hE1ng]
    rw [hE1c, Nat.zero_add]
    rw [subgroupCountsAux_append_nogroup _ _ _ (flatMap_chunkIf_noGroup _)]
    rw [hBcount, show (1 + 9 : Nat) = 10 from by norm_num]
    rw [subgroupCountsAux_group_cons _ _ _ (by decide)]
    rw [subgroupCountsAux_skip _ _ _ (by decide) (by decide)]
    rw [subgroupCountsAux_append_nogroup _ _ _ hE2ng]
    rw [hE2c, Nat.zero_add]
    rw [subgroupCountsAux_append_nogroup _ _ _ (flatMap_chunkIf_noGroup _)]
    rw [hCcount, show (1 + 2 : Nat) = 3 from by norm_num]
    rfl

/-- A concrete 23-element scrape data set. -/
def jdC3 : JmxData :=
  [(str "com.example",
    [(str "Bean",
      List.replicate 23 (⟨str "com.example:type=Q", [], [⟨str "Value", true⟩]⟩ : JMXElement))])]

theorem claim_C3_witness :
    (elementsOf jdC3).length = 23 ∧
    (∀ e ∈ elementsOf jdC3, elemNlFree e) ∧
    ((linesOf (yamlFull jdC3)).filter isGroupLine =
      [str "  - group: group_0", str "  - group: group_1",
       str "  - group: group_2"] ∧
    subgroupCounts (linesOf (yamlFull jdC3)) = [10, 10, 3]) :=
  ⟨by decide, by decide, claim_C3_theorem jdC3 (by decide) (by decide)⟩
